import Mathlib

/-!
Verification of the performance-metrics module (src/performance.py).

The module computes four metrics over a chronological return series:
CAGR, annualised volatility, Sharpe ratio, and maximum drawdown
(with time-in-drawdown proportion and maximum drawdown duration).

Embedding choices:
* `CAGR`, `annualVolatility`, `sharpeRatio` involve real powers
  (`** (periods / n)`, `** 0.5`) and a square root, so they are modelled
  over `ℝ` with `Real.rpow` / `Real.sqrt`.
* `maxDrawdown` only uses field arithmetic, `max`, and comparisons, so it
  is modelled over `ℚ`, which keeps it executable.
* A pandas `Series` is modelled as a `List`; `.add`, `.product`, `.std`,
  `.cumprod`, `.cummax`, elementwise arithmetic and boolean filtering are
  modelled by the corresponding list operations.
-/

namespace Performance

/-- Embeds `CAGR(returns, periods)`:
`returns.add(1.0).product() ** (periods / len(returns)) - 1.0`.
Python `**` with a float exponent is real exponentiation (`Real.rpow`). -/
noncomputable def CAGR (returns : List ℝ) (periods : ℕ) : ℝ :=
  ((returns.map fun r => r + 1).prod) ^ ((periods : ℝ) / (returns.length : ℝ)) - 1

/-- Embeds the mean used by pandas `Series.std`: sum divided by length. -/
noncomputable def mean (returns : List ℝ) : ℝ :=
  returns.sum / (returns.length : ℝ)

/-- Embeds pandas `returns.std()` with its default `ddof=1`:
square root of the sum of squared deviations from the mean divided
by `n - 1` (Bessel's correction). -/
noncomputable def std (returns : List ℝ) : ℝ :=
  Real.sqrt (((returns.map fun x => (x - mean returns) ^ 2).sum) / ((returns.length : ℝ) - 1))

/-- Embeds `annualVolatility(returns, periods)`:
`returns.std() * (periods ** 0.5)`. -/
noncomputable def annualVolatility (returns : List ℝ) (periods : ℕ) : ℝ :=
  std returns * (periods : ℝ) ^ (0.5 : ℝ)

/-- Embeds `sharpeRatio(returns, periods, rfr)`:
`(CAGR(returns, periods) - rfr) / annualVolatility(returns, periods)`. -/
noncomputable def sharpeRatio (returns : List ℝ) (periods : ℕ) (rfr : ℝ) : ℝ :=
  (CAGR returns periods - rfr) / annualVolatility returns periods

/-- One-step-behind scan: `scan1 f acc [x₀, x₁, …] = [f acc x₀, f (f acc x₀) x₁, …]`.
With `f = (· * ·)` and `acc = 1` this is pandas `cumprod`; with `f = max`
seeded with the head it is pandas `cummax`. -/
def scan1 (f : ℚ → ℚ → ℚ) (acc : ℚ) : List ℚ → List ℚ
  | [] => []
  | x :: xs => f acc x :: scan1 f (f acc x) xs

/-- Embeds pandas `Series.cumprod`: running products of the series. -/
def cumprod (xs : List ℚ) : List ℚ := scan1 (· * ·) 1 xs

/-- Embeds pandas `Series.cummax`: running maxima of the series. -/
def cummax : List ℚ → List ℚ
  | [] => []
  | x :: xs => x :: scan1 max x xs

/-- Embeds the drawdown series of `maxDrawdown`:
`value = returns.add(1.0).cumprod(); ddSeries = 1.0 - value / value.cummax()`. -/
def ddSeries (returns : List ℚ) : List ℚ :=
  List.zipWith (fun v p => 1 - v / p)
    (cumprod (returns.map fun r => r + 1))
    (cummax (cumprod (returns.map fun r => r + 1)))

/-- Embeds pandas `Series.max()` on the (nonempty) drawdown series; the
value on the empty list is irrelevant (pandas would give NaN there). -/
def seriesMax : List ℚ → ℚ
  | [] => 0
  | x :: xs => xs.foldl max x

/-- Embeds the reducer `durReduce(res, curr)` of `maxDrawdown`:
`currDrawdownDur = 0 if curr == 0 else res[0] + 1;
return (currDrawdownDur, max(currDrawdownDur, res[1]))`. -/
def durReduce (res : ℕ × ℕ) (curr : ℚ) : ℕ × ℕ :=
  (if curr = 0 then 0 else res.1 + 1,
   max (if curr = 0 then 0 else res.1 + 1) res.2)

/-- Embeds `maxDrawdown(returns)`: maximum of the drawdown series, the
count of strictly positive drawdowns over the length, and the second
component of `reduce(durReduce, ddSeries, (0, 0))`. -/
def maxDrawdown (returns : List ℚ) : ℚ × ℚ × ℕ :=
  (seriesMax (ddSeries returns),
   ((ddSeries returns).countP fun x => decide (0 < x)) / ((ddSeries returns).length : ℚ),
   ((ddSeries returns).foldl durReduce (0, 0)).2)

/-- Spec-side cumulative value: `value_i = Π_{j ≤ i} (1 + r_j)`. -/
def specValue (r : ℕ → ℚ) (i : ℕ) : ℚ :=
  ∏ j ∈ Finset.range (i + 1), (1 + r j)

/-- Spec-side running peak: `peak_i = max(value_0, …, value_i)`. -/
def specPeak (r : ℕ → ℚ) : ℕ → ℚ
  | 0 => specValue r 0
  | i + 1 => max (specPeak r i) (specValue r (i + 1))

/-- Spec-side drawdown: `dd_i = 1 - value_i / peak_i`. -/
def specDD (r : ℕ → ℚ) (i : ℕ) : ℚ :=
  1 - specValue r i / specPeak r i

/-- Spec-side running consecutive-count scan over the drawdown series:
the count resets to 0 whenever the entry is 0 and otherwise is the
previous count plus 1; the list collects the count after each entry. -/
def runningCount (c : ℕ) : List ℚ → List ℕ
  | [] => []
  | x :: xs =>
      (if x = 0 then 0 else c + 1) :: runningCount (if x = 0 then 0 else c + 1) xs

/-- Spec-side maximum drawdown duration: the largest value the running
count ever reaches (starting from 0). -/
def specMaxDuration (dds : List ℚ) : ℕ :=
  (runningCount 0 dds).foldr max 0

/-- Spec-side indexing of a series: the j-th return (0 past the end). -/
def atIdx (rs : List ℚ) (j : ℕ) : ℚ := rs.getD j 0

/-- C1: for a non-empty return series of length n and any periods value,
CAGR equals the product of the terms 1 + r_i over the whole sequence,
raised to the power periods / n, minus 1. -/
theorem CAGR_eq_compounded_growth (n : ℕ) (hn : 1 ≤ n) (periods : ℕ) (r : Fin n → ℝ) :
    CAGR (List.ofFn r) periods = (∏ i, (1 + r i)) ^ ((periods : ℝ) / (n : ℝ)) - 1 := by
  unfold CAGR
  rw [List.map_ofFn, List.prod_ofFn, List.length_ofFn]
  simp [Function.comp, add_comm]

/-- Witness for C1 at the singleton zero-return series and periods = 252. -/
theorem CAGR_eq_compounded_growth_witness :
    1 ≤ 1 ∧ CAGR (List.ofFn fun _ : Fin 1 => (0 : ℝ)) 252 =
      (∏ i : Fin 1, (1 + (0 : ℝ))) ^ (((252 : ℕ) : ℝ) / ((1 : ℕ) : ℝ)) - 1 :=
  ⟨le_refl 1, CAGR_eq_compounded_growth 1 (le_refl 1) 252 (fun _ => 0)⟩

/-- C2: for a return series of length n ≥ 2 and any periods value, the
annualised volatility equals the Bessel-corrected sample standard
deviation (squared deviations from the mean, divided by n - 1, under a
square root) multiplied by the square root of periods. -/
theorem annualVolatility_eq_sampleStd_scaled (n : ℕ) (hn : 2 ≤ n) (periods : ℕ)
    (r : Fin n → ℝ) :
    annualVolatility (List.ofFn r) periods =
      Real.sqrt ((∑ i, (r i - (∑ j, r j) / (n : ℝ)) ^ 2) / ((n : ℝ) - 1)) *
        Real.sqrt (periods : ℝ) := by
  unfold annualVolatility std mean
  rw [Real.sqrt_eq_rpow (periods : ℝ)]
  rw [List.map_ofFn, List.sum_ofFn, List.sum_ofFn, List.length_ofFn]
  norm_num [Function.comp]

/-- Witness for C2 at the two-element zero series and periods = 252. -/
theorem annualVolatility_eq_sampleStd_scaled_witness :
    2 ≤ 2 ∧ annualVolatility (List.ofFn fun _ : Fin 2 => (0 : ℝ)) 252 =
      Real.sqrt ((∑ _i : Fin 2, ((0 : ℝ) - (∑ _j : Fin 2, (0 : ℝ)) / ((2 : ℕ) : ℝ)) ^ 2) /
          (((2 : ℕ) : ℝ) - 1)) * Real.sqrt ((252 : ℕ) : ℝ) :=
  ⟨le_refl 2, annualVolatility_eq_sampleStd_scaled 2 (le_refl 2) 252 (fun _ => 0)⟩

/-- C3: the Sharpe ratio is the CAGR minus the risk-free rate, divided by
the annualised volatility, for every series, periods value and rate
(hence in particular on inputs where both constituents are defined). -/
theorem sharpeRatio_eq_excess_over_vol (returns : List ℝ) (periods : ℕ) (rfr : ℝ) :
    sharpeRatio returns periods rfr =
      (CAGR returns periods - rfr) / annualVolatility returns periods := rfl

/-- C6: on the concrete series [0.10, -0.20, 0.05], maxDrawdown returns
maximum drawdown 1/5 = 0.2, proportion of time in drawdown 2/3, and
maximum drawdown duration 2. -/
theorem maxDrawdown_example : maxDrawdown [1/10, -1/5, 1/20] = (1/5, 2/3, 2) := by
  norm_num [maxDrawdown, ddSeries, cumprod, cummax, scan1, seriesMax, durReduce,
    List.countP, List.countP.go, max_def]

/-- C9: a return of exactly -1 makes the compounded product exactly 0,
so with a positive annualising exponent CAGR is exactly -1. -/
theorem CAGR_total_loss (returns : List ℝ) (periods : ℕ) (h1 : returns ≠ [])
    (h2 : (-1 : ℝ) ∈ returns) (h3 : 0 < (periods : ℝ) / (returns.length : ℝ)) :
    ((returns.map fun r => r + 1).prod = 0) ∧ CAGR returns periods = -1 := by
  have hprod : (returns.map fun r => r + 1).prod = 0 := by
    apply List.prod_eq_zero
    exact List.mem_map.mpr ⟨-1, h2, by norm_num⟩
  refine ⟨hprod, ?_⟩
  unfold CAGR
  rw [hprod, Real.zero_rpow (ne_of_gt h3)]
  norm_num

/-- Witness for C9 at the singleton total-loss series and periods = 252. -/
theorem CAGR_total_loss_witness :
    (([(-1 : ℝ)] ≠ []) ∧ (-1 : ℝ) ∈ [(-1 : ℝ)] ∧
      0 < ((252 : ℕ) : ℝ) / (([(-1 : ℝ)] : List ℝ).length : ℝ)) ∧
    ((([(-1 : ℝ)].map fun r => r + 1).prod = 0) ∧ CAGR [(-1 : ℝ)] 252 = -1) :=
  ⟨⟨by simp, by simp, by norm_num⟩,
    CAGR_total_loss [(-1 : ℝ)] 252 (by simp) (by simp) (by norm_num)⟩


theorem scan1_length (f : ℚ → ℚ → ℚ) (acc : ℚ) (l : List ℚ) :
    (scan1 f acc l).length = l.length := by
  induction l generalizing acc with
  | nil => rfl
  | cons x xs ih => simp [scan1, ih]

theorem foldl_take_succ (f : ℚ → ℚ → ℚ) (l : List ℚ) (i : ℕ) (h : i < l.length) (a : ℚ) :
    (l.take (i + 1)).foldl f a = f ((l.take i).foldl f a) (l.get ⟨i, h⟩) := by
  induction l generalizing i a with
  | nil => simp at h
  | cons x xs ih =>
    cases i with
    | zero => simp
    | succ j => simpa using ih j (by simpa using h) (f a x)

theorem scan1_get (f : ℚ → ℚ → ℚ) (l : List ℚ) (acc : ℚ) (i : ℕ)
    (h : i < (scan1 f acc l).length) :
    (scan1 f acc l).get ⟨i, h⟩ = (l.take (i + 1)).foldl f acc := by
  induction l generalizing acc i with
  | nil => simp [scan1] at h
  | cons x xs ih =>
    cases i with
    | zero => simp [scan1]
    | succ j =>
      have hj : j < (scan1 f (f acc x) xs).length := by
        simpa [scan1] using h
      simpa [scan1] using ih (f acc x) j hj

theorem cumprod_length (xs : List ℚ) : (cumprod xs).length = xs.length :=
  scan1_length _ _ _

theorem specValue_succ (r : ℕ → ℚ) (i : ℕ) :
    specValue r (i + 1) = specValue r i * (1 + r (i + 1)) := by
  simp [specValue, Finset.prod_range_succ]

theorem foldl_mul_take (rs : List ℚ) : ∀ i, i < rs.length →
    ((rs.map fun r => r + 1).take (i + 1)).foldl (· * ·) 1 = specValue (atIdx rs) i := by
  intro i
  induction i with
  | zero =>
    intro h
    obtain ⟨a, tl, rfl⟩ := List.exists_cons_of_ne_nil (List.ne_nil_of_length_pos h)
    simp [specValue, atIdx, add_comm]
  | succ j ihj =>
    intro h
    have hj : j < rs.length := Nat.lt_of_succ_lt h
    have hmap : j + 1 < (rs.map fun r => r + 1).length := by simpa using h
    rw [foldl_take_succ _ _ _ hmap, ihj hj]
    have hget : (rs.map fun r => r + 1).get ⟨j + 1, hmap⟩ = rs.getD (j + 1) 0 + 1 := by
      rw [List.get_map, List.getD_eq_get _ _ h]
    rw [hget, specValue_succ]
    show _ = specValue (atIdx rs) j * (1 + rs.getD (j + 1) 0)
    ring

theorem value_get (rs : List ℚ) (i : ℕ) (h : i < rs.length)
    (h2 : i < (cumprod (rs.map fun r => r + 1)).length) :
    (cumprod (rs.map fun r => r + 1)).get ⟨i, h2⟩ = specValue (atIdx rs) i := by
  simp only [cumprod] at h2 ⊢
  rw [scan1_get _ _ _ _ h2]
  exact foldl_mul_take rs i h

theorem cummax_length (l : List ℚ) : (cummax l).length = l.length := by
  cases l with
  | nil => rfl
  | cons x xs => simp [cummax, scan1_length]

theorem value_getD (rs : List ℚ) (i : ℕ) (h : i < rs.length) :
    (cumprod (rs.map fun r => r + 1)).getD i 0 = specValue (atIdx rs) i := by
  have h2 : i < (cumprod (rs.map fun r => r + 1)).length := by
    rw [cumprod_length, List.length_map]
    exact h
  rw [List.getD_eq_get _ _ h2]
  exact value_get rs i h h2

theorem cummax_getD_cons (v0 : ℚ) (rest : List ℚ) (i : ℕ) (h : i ≤ rest.length) :
    (cummax (v0 :: rest)).getD i 0 = (rest.take i).foldl max v0 := by
  have h2 : i < (cummax (v0 :: rest)).length := by
    rw [cummax_length]
    simpa using Nat.lt_succ_of_le h
  rw [List.getD_eq_get _ _ h2]
  cases i with
  | zero => simp [cummax]
  | succ j =>
    have hj : j < (scan1 max v0 rest).length := by
      simpa [cummax] using h2
    simpa [cummax] using scan1_get max rest v0 j hj

theorem specPeak_succ (r : ℕ → ℚ) (i : ℕ) :
    specPeak r (i + 1) = max (specPeak r i) (specValue r (i + 1)) := rfl

theorem peak_getD (rs : List ℚ) (i : ℕ) (h : i < rs.length) :
    (cummax (cumprod (rs.map fun r => r + 1))).getD i 0 = specPeak (atIdx rs) i := by
  have hlenv : (cumprod (rs.map fun r => r + 1)).length = rs.length := by
    rw [cumprod_length, List.length_map]
  obtain ⟨v0, rest, hcons⟩ :=
    List.exists_cons_of_ne_nil
      (l := cumprod (rs.map fun r => r + 1))
      (List.ne_nil_of_length_pos (by rw [hlenv]; exact Nat.lt_of_le_of_lt (Nat.zero_le i) h))
  have hlrest : rest.length + 1 = rs.length := by
    rw [← hlenv, hcons]
    rfl
  have hv0 : v0 = specValue (atIdx rs) 0 := by
    have h0 : 0 < rs.length := Nat.lt_of_le_of_lt (Nat.zero_le i) h
    have hv := value_getD rs 0 h0
    rw [hcons] at hv
    simpa using hv
  have hvrest : ∀ j, j < rest.length → rest.getD j 0 = specValue (atIdx rs) (j + 1) := by
    intro j hjr
    have hv := value_getD rs (j + 1) (by omega)
    rw [hcons] at hv
    simpa using hv
  induction i with
  | zero =>
    rw [hcons, cummax_getD_cons _ _ _ (Nat.zero_le _)]
    simpa using hv0
  | succ j ihj =>
    have hj : j < rs.length := Nat.lt_of_succ_lt h
    have hrest : j < rest.length := by omega
    rw [hcons, cummax_getD_cons _ _ _ hrest,
      foldl_take_succ _ _ _ hrest, ← List.getD_eq_get _ _ hrest, hvrest j hrest]
    have hprev := ihj hj
    rw [hcons, cummax_getD_cons _ _ _ (Nat.le_of_lt hrest)] at hprev
    rw [hprev, specPeak_succ]

theorem ddSeries_length (rs : List ℚ) : (ddSeries rs).length = rs.length := by
  simp [ddSeries, cumprod_length, cummax_length]

theorem ddSeries_getD (rs : List ℚ) (i : ℕ) (h : i < rs.length) :
    (ddSeries rs).getD i 0 = specDD (atIdx rs) i := by
  have h2 : i < (ddSeries rs).length := by rw [ddSeries_length]; exact h
  rw [List.getD_eq_get _ _ h2]
  unfold ddSeries at h2 ⊢
  rw [List.get_zipWith]
  have hv : i < (cumprod (rs.map fun r => r + 1)).length := by
    rw [cumprod_length, List.length_map]
    exact h
  have hp : i < (cummax (cumprod (rs.map fun r => r + 1))).length := by
    rw [cummax_length, cumprod_length, List.length_map]
    exact h
  rw [← List.getD_eq_get _ 0 hv, ← List.getD_eq_get _ 0 hp,
    value_getD rs i h, peak_getD rs i h]
  rfl

theorem le_foldl_max (l : List ℚ) (a : ℚ) : a ≤ l.foldl max a := by
  induction l generalizing a with
  | nil => exact le_refl a
  | cons x xs ih => exact le_trans (le_max_left a x) (ih (max a x))

theorem mem_le_foldl_max (l : List ℚ) (a x : ℚ) (hx : x ∈ l) : x ≤ l.foldl max a := by
  induction l generalizing a with
  | nil => simp at hx
  | cons y ys ih =>
    rcases List.mem_cons.mp hx with rfl | hmem
    · exact le_trans (le_max_right a x) (le_foldl_max ys (max a x))
    · exact ih (max a y) hmem

theorem foldl_max_mem (l : List ℚ) (a : ℚ) : l.foldl max a = a ∨ l.foldl max a ∈ l := by
  induction l generalizing a with
  | nil => exact Or.inl rfl
  | cons x xs ih =>
    rcases ih (max a x) with heq | hmem
    · rcases max_choice a x with hax | hax
      · rw [List.foldl_cons, heq, hax]
        exact Or.inl rfl
      · rw [List.foldl_cons, heq, hax]
        exact Or.inr (List.mem_cons_self x xs)
    · exact Or.inr (List.mem_cons_of_mem x hmem)

theorem seriesMax_mem (l : List ℚ) (h : l ≠ []) : seriesMax l ∈ l := by
  obtain ⟨x, xs, rfl⟩ := List.exists_cons_of_ne_nil h
  rcases foldl_max_mem xs x with heq | hmem
  · rw [seriesMax, heq]
    exact List.mem_cons_self x xs
  · exact List.mem_cons_of_mem x hmem

theorem le_seriesMax (l : List ℚ) (x : ℚ) (hx : x ∈ l) : x ≤ seriesMax l := by
  cases l with
  | nil => simp at hx
  | cons y ys =>
    rcases List.mem_cons.mp hx with rfl | hmem
    · exact le_foldl_max ys x
    · exact mem_le_foldl_max ys y x hmem

theorem countP_eq_card_range (l : List ℚ) (p : ℚ → Bool) :
    l.countP p = ((Finset.range l.length).filter fun i => p (l.getD i 0) = true).card := by
  induction l with
  | nil => simp
  | cons x xs ih =>
    rw [List.countP_cons, ih, Finset.card_filter, Finset.card_filter,
      List.length_cons, Finset.sum_range_succ']
    simp [List.getD_cons_zero, List.getD_cons_succ]

/-- C4: for a non-empty series the first component of maxDrawdown is the
maximum over i of dd_i = 1 - value_i / peak_i (value the running product
of 1 + r_j, peak its running maximum), and the second component is the
count of indices with dd_i > 0 divided by n. -/
theorem maxDrawdown_max_and_proportion (rs : List ℚ) (hne : rs ≠ []) :
    ((∃ i : Fin rs.length, (maxDrawdown rs).1 = specDD (atIdx rs) i) ∧
      ∀ i : Fin rs.length, specDD (atIdx rs) i ≤ (maxDrawdown rs).1) ∧
    (maxDrawdown rs).2.1 =
      (((Finset.range rs.length).filter fun i => 0 < specDD (atIdx rs) i).card : ℚ) /
        (rs.length : ℚ) := by
  have hlen : (ddSeries rs).length = rs.length := ddSeries_length rs
  have hlpos : 0 < rs.length := List.length_pos.mpr hne
  have hddne : ddSeries rs ≠ [] := by
    intro hnil
    rw [hnil] at hlen
    simp at hlen
    omega
  refine ⟨⟨?_, ?_⟩, ?_⟩
  · obtain ⟨⟨i, hi⟩, hEq⟩ := List.mem_iff_get.mp (seriesMax_mem (ddSeries rs) hddne)
    refine ⟨⟨i, by rw [← hlen]; exact hi⟩, ?_⟩
    have : (maxDrawdown rs).1 = seriesMax (ddSeries rs) := rfl
    rw [this, ← hEq, ← List.getD_eq_get _ 0 hi, ddSeries_getD rs i (by rw [← hlen]; exact hi)]
  · intro i
    have hi : (i : ℕ) < (ddSeries rs).length := by rw [hlen]; exact i.isLt
    have : specDD (atIdx rs) i = (ddSeries rs).get ⟨i, hi⟩ := by
      rw [← List.getD_eq_get _ 0 hi, ddSeries_getD rs i i.isLt]
    rw [this]
    exact le_seriesMax _ _ (List.get_mem _ _ _)
  · have : (maxDrawdown rs).2.1 =
        ((ddSeries rs).countP fun x => decide (0 < x)) / ((ddSeries rs).length : ℚ) := rfl
    rw [this, countP_eq_card_range, hlen]
    congr 2
    refine congrArg Finset.card (Finset.filter_congr ?_)
    intro i hi
    rw [Finset.mem_range] at hi
    rw [ddSeries_getD rs i hi]
    simp

theorem foldl_durReduce_snd (l : List ℚ) : ∀ c m : ℕ,
    (l.foldl durReduce (c, m)).2 = max m ((runningCount c l).foldr max 0) := by
  induction l with
  | nil => intro c m; simp [runningCount]
  | cons x xs ih =>
    intro c m
    rw [List.foldl_cons, runningCount]
    rcases eq_or_ne x 0 with hx | hx
    · rw [if_pos hx]
      have hstep : durReduce (c, m) x = (0, max 0 m) := by
        simp [durReduce, hx]
      rw [hstep, ih 0 (max 0 m), List.foldr_cons]
      omega
    · rw [if_neg hx]
      have hstep : durReduce (c, m) x = (c + 1, max (c + 1) m) := by
        simp [durReduce, hx]
      rw [hstep, ih (c + 1) (max (c + 1) m), List.foldr_cons]
      omega

/-- C5: the third component of maxDrawdown equals the maximum value
reached by the left-to-right running-count fold over the drawdown series
(reset to 0 on a zero entry, previous count plus 1 otherwise). -/
theorem maxDrawdown_duration_eq_scan (rs : List ℚ) :
    (maxDrawdown rs).2.2 = specMaxDuration (ddSeries rs) := by
  have : (maxDrawdown rs).2.2 = ((ddSeries rs).foldl durReduce (0, 0)).2 := rfl
  rw [this, foldl_durReduce_snd, specMaxDuration]
  omega

theorem scan1_max_eq_of_chain : ∀ (xs : List ℚ) (x a : ℚ), a ≤ x →
    List.Chain' (· ≤ ·) (x :: xs) → scan1 max a (x :: xs) = x :: xs := by
  intro xs
  induction xs with
  | nil =>
    intro x a hax _
    simp [scan1, max_eq_right hax]
  | cons y ys ih =>
    intro x a hax hch
    rw [List.chain'_cons] at hch
    rw [scan1, max_eq_right hax, ih y x hch.1 hch.2]

theorem cummax_eq_self_of_chain (l : List ℚ) (h : List.Chain' (· ≤ ·) l) : cummax l = l := by
  cases l with
  | nil => rfl
  | cons x xs =>
    cases xs with
    | nil => rfl
    | cons y ys =>
      rw [List.chain'_cons] at h
      rw [cummax, scan1_max_eq_of_chain ys y x h.1 h.2]

theorem cumprod_pos_chain : ∀ (l : List ℚ) (a : ℚ), 0 < a → (∀ x ∈ l, 1 ≤ x) →
    (∀ v ∈ scan1 (· * ·) a l, 0 < v) ∧ List.Chain' (· ≤ ·) (a :: scan1 (· * ·) a l) := by
  intro l
  induction l with
  | nil =>
    intro a _ _
    exact ⟨fun v hv => by simp [scan1] at hv, by simp [scan1]⟩
  | cons x xs ih =>
    intro a ha hx
    have hx1 : 1 ≤ x := hx x (List.mem_cons_self x xs)
    have hxpos : 0 < x := lt_of_lt_of_le zero_lt_one hx1
    have hax : 0 < a * x := mul_pos ha hxpos
    have hax2 : a ≤ a * x := le_mul_of_one_le_right (le_of_lt ha) hx1
    obtain ⟨ihpos, ihchain⟩ := ih (a * x) hax fun y hy => hx y (List.mem_cons_of_mem x hy)
    constructor
    · intro v hv
      simp only [scan1] at hv
      rcases List.mem_cons.mp hv with rfl | hmem
      · exact hax
      · exact ihpos v hmem
    · simp only [scan1]
      rw [List.chain'_cons]
      exact ⟨hax2, ihchain⟩

theorem foldl_durReduce_zero (l : List ℚ) (hz : ∀ x ∈ l, x = 0) :
    ∀ m : ℕ, l.foldl durReduce (0, m) = (0, m) := by
  induction l with
  | nil => intro m; rfl
  | cons x xs ih =>
    intro m
    have hx : x = 0 := hz x (List.mem_cons_self x xs)
    have hstep : durReduce (0, m) x = (0, m) := by
      simp [durReduce, hx]
    rw [List.foldl_cons, hstep, ih fun y hy => hz y (List.mem_cons_of_mem x hy)]

/-- C7: for a non-empty series whose returns are all nonnegative,
maxDrawdown returns exactly (0, 0, 0). -/
theorem maxDrawdown_monotone (rs : List ℚ) (hne : rs ≠ []) (hr : ∀ r ∈ rs, 0 ≤ r) :
    maxDrawdown rs = (0, 0, 0) := by
  have hx1 : ∀ x ∈ rs.map (fun r => r + 1), 1 ≤ x := by
    intro x hxm
    obtain ⟨r, hrm, rfl⟩ := List.mem_map.mp hxm
    have := hr r hrm
    linarith
  obtain ⟨hpos, hchain⟩ := cumprod_pos_chain (rs.map fun r => r + 1) 1 one_pos hx1
  have hchain2 : List.Chain' (· ≤ ·) (cumprod (rs.map fun r => r + 1)) := by
    have := hchain.tail
    simpa [cumprod] using this
  have hcm : cummax (cumprod (rs.map fun r => r + 1)) = cumprod (rs.map fun r => r + 1) :=
    cummax_eq_self_of_chain _ hchain2
  have hdd : ddSeries rs = (cumprod (rs.map fun r => r + 1)).map fun v => 1 - v / v := by
    rw [ddSeries, hcm, List.zipWith_same]
  have hddzero : ∀ x ∈ ddSeries rs, x = 0 := by
    rw [hdd]
    intro x hxm
    obtain ⟨v, hvm, rfl⟩ := List.mem_map.mp hxm
    have hv : 0 < v := hpos v (by simpa [cumprod] using hvm)
    rw [div_self (ne_of_gt hv)]
    ring
  have hlen : (ddSeries rs).length = rs.length := ddSeries_length rs
  have hddne : ddSeries rs ≠ [] := by
    intro hnil
    rw [hnil] at hlen
    simp at hlen
    exact hne (List.length_eq_zero.mp hlen.symm)
  have h1 : (maxDrawdown rs).1 = 0 := hddzero _ (seriesMax_mem _ hddne)
  have h2 : (maxDrawdown rs).2.1 = 0 := by
    have hcount : (ddSeries rs).countP (fun x => decide (0 < x)) = 0 := by
      rw [List.countP_eq_zero]
      intro a ha
      rw [hddzero a ha]
      simp
    show ((ddSeries rs).countP fun x => decide (0 < x)) / ((ddSeries rs).length : ℚ) = 0
    rw [hcount]
    simp
  have h3 : (maxDrawdown rs).2.2 = 0 := by
    show ((ddSeries rs).foldl durReduce (0, 0)).2 = 0
    rw [foldl_durReduce_zero _ hddzero 0]
  calc maxDrawdown rs
      = ((maxDrawdown rs).1, (maxDrawdown rs).2.1, (maxDrawdown rs).2.2) := rfl
    _ = (0, 0, 0) := by rw [h1, h2, h3]

theorem specValue_pos (rs : List ℚ) (hpos : ∀ r ∈ rs, 0 < 1 + r) (i : ℕ)
    (h : i < rs.length) : 0 < specValue (atIdx rs) i := by
  apply Finset.prod_pos
  intro j hj
  rw [Finset.mem_range] at hj
  have hjlen : j < rs.length := by omega
  have hmem : rs.getD j 0 ∈ rs := by
    rw [List.getD_eq_get _ _ hjlen]
    exact List.get_mem _ _ _
  exact hpos _ hmem

theorem specPeak_pos (rs : List ℚ) (hpos : ∀ r ∈ rs, 0 < 1 + r) (i : ℕ)
    (h : i < rs.length) : 0 < specPeak (atIdx rs) i := by
  induction i with
  | zero => exact specValue_pos rs hpos 0 h
  | succ j ih =>
    rw [specPeak_succ]
    exact lt_max_of_lt_left (ih (by omega))

theorem specValue_le_specPeak (r : ℕ → ℚ) (i : ℕ) : specValue r i ≤ specPeak r i := by
  cases i with
  | zero => exact le_refl _
  | succ j => rw [specPeak_succ]; exact le_max_right _ _

theorem specDD_nonneg (rs : List ℚ) (hpos : ∀ r ∈ rs, 0 < 1 + r) (i : ℕ)
    (h : i < rs.length) : 0 ≤ specDD (atIdx rs) i := by
  rw [specDD, sub_nonneg, div_le_one (specPeak_pos rs hpos i h)]
  exact specValue_le_specPeak _ _

theorem specDD_zero_eq (rs : List ℚ) (hpos : ∀ r ∈ rs, 0 < 1 + r)
    (h : 0 < rs.length) : specDD (atIdx rs) 0 = 0 := by
  rw [specDD, show specPeak (atIdx rs) 0 = specValue (atIdx rs) 0 from rfl,
    div_self (ne_of_gt (specValue_pos rs hpos 0 h))]
  ring

theorem foldl_durReduce_le (l : List ℚ) : ∀ c m : ℕ,
    (l.foldl durReduce (c, m)).2 ≤ max m (c + l.length) := by
  induction l with
  | nil =>
    intro c m
    simp
  | cons x xs ih =>
    intro c m
    rw [List.foldl_cons, List.length_cons]
    rcases eq_or_ne x 0 with hx | hx
    · have hstep : durReduce (c, m) x = (0, max 0 m) := by simp [durReduce, hx]
      rw [hstep]
      have := ih 0 (max 0 m)
      omega
    · have hstep : durReduce (c, m) x = (c + 1, max (c + 1) m) := by simp [durReduce, hx]
      rw [hstep]
      have := ih (c + 1) (max (c + 1) m)
      omega

/-- C10: for a non-empty series with every 1 + r_i > 0, the first
drawdown entry is 0, every drawdown entry is nonnegative, the maximum
drawdown is nonnegative, the duration is at most n - 1 and the
proportion is at most (n - 1) / n. -/
theorem maxDrawdown_bounds (rs : List ℚ) (hne : rs ≠ [])
    (hpos : ∀ r ∈ rs, 0 < 1 + r) :
    (ddSeries rs).headI = 0 ∧
    (∀ x ∈ ddSeries rs, 0 ≤ x) ∧
    0 ≤ (maxDrawdown rs).1 ∧
    (maxDrawdown rs).2.2 ≤ rs.length - 1 ∧
    (maxDrawdown rs).2.1 ≤ ((rs.length : ℚ) - 1) / (rs.length : ℚ) := by
  have hlpos : 0 < rs.length := List.length_pos.mpr hne
  have hlen : (ddSeries rs).length = rs.length := ddSeries_length rs
  have hddne : ddSeries rs ≠ [] := by
    intro hnil
    rw [hnil] at hlen
    simp at hlen
    exact hne (List.length_eq_zero.mp hlen.symm)
  obtain ⟨d, tl, hcons⟩ := List.exists_cons_of_ne_nil hddne
  have hd : d = 0 := by
    have := ddSeries_getD rs 0 hlpos
    rw [hcons, List.getD_cons_zero, specDD_zero_eq rs hpos hlpos] at this
    exact this
  have htl : tl.length = rs.length - 1 := by
    rw [hcons] at hlen
    simp at hlen
    omega
  have hhead : (ddSeries rs).headI = 0 := by
    rw [hcons, hd]
    rfl
  have hnn : ∀ x ∈ ddSeries rs, 0 ≤ x := by
    intro x hx
    obtain ⟨⟨i, hi⟩, hEq⟩ := List.mem_iff_get.mp hx
    have hilen : i < rs.length := by rw [← hlen]; exact hi
    rw [← hEq, ← List.getD_eq_get _ 0 hi, ddSeries_getD rs i hilen]
    exact specDD_nonneg rs hpos i hilen
  refine ⟨hhead, hnn, ?_, ?_, ?_⟩
  · have hmem : (0 : ℚ) ∈ ddSeries rs := by
      rw [hcons, ← hd]
      exact List.mem_cons_self d tl
    exact le_seriesMax _ 0 hmem
  · show ((ddSeries rs).foldl durReduce (0, 0)).2 ≤ rs.length - 1
    rw [hcons, hd, List.foldl_cons]
    have hstep : durReduce (0, 0) 0 = (0, 0) := by simp [durReduce]
    rw [hstep]
    have := foldl_durReduce_le tl 0 0
    omega
  · show (((ddSeries rs).countP fun x => decide (0 < x)) : ℚ) / ((ddSeries rs).length : ℚ) ≤
      ((rs.length : ℚ) - 1) / (rs.length : ℚ)
    rw [hlen]
    have hcount : (ddSeries rs).countP (fun x => decide (0 < x)) ≤ rs.length - 1 := by
      rw [hcons, hd, List.countP_cons_of_neg _ _ (by simp), ← htl]
      exact List.countP_le_length _
    rw [div_le_div_right (by exact_mod_cast hlpos)]
    have hc : ((ddSeries rs).countP fun x => decide (0 < x)) ≤ rs.length - 1 := hcount
    have := (Nat.cast_le (α := ℚ)).mpr hc
    rw [Nat.cast_sub hlpos] at this
    simpa using this

/-- Witness for C4 at the singleton unit-return series. -/
theorem maxDrawdown_max_and_proportion_witness :
    ([(1 : ℚ)] ≠ []) ∧
    (((∃ i : Fin ([(1 : ℚ)].length), (maxDrawdown [(1 : ℚ)]).1 = specDD (atIdx [(1 : ℚ)]) i) ∧
        ∀ i : Fin ([(1 : ℚ)].length), specDD (atIdx [(1 : ℚ)]) i ≤ (maxDrawdown [(1 : ℚ)]).1) ∧
      (maxDrawdown [(1 : ℚ)]).2.1 =
        (((Finset.range ([(1 : ℚ)].length)).filter
            fun i => 0 < specDD (atIdx [(1 : ℚ)]) i).card : ℚ) / (([(1 : ℚ)].length : ℚ))) :=
  ⟨by simp, maxDrawdown_max_and_proportion [(1 : ℚ)] (by simp)⟩

/-- Witness for C7 at the two-element nonnegative series [0, 1]. -/
theorem maxDrawdown_monotone_witness :
    (([(0 : ℚ), 1] ≠ []) ∧ ∀ r ∈ [(0 : ℚ), 1], 0 ≤ r) ∧
      maxDrawdown [(0 : ℚ), 1] = (0, 0, 0) :=
  ⟨⟨by simp, by norm_num⟩, maxDrawdown_monotone [(0 : ℚ), 1] (by simp) (by norm_num)⟩

/-- Witness for C10 at the series [0.10, -0.20, 0.05]. -/
theorem maxDrawdown_bounds_witness :
    (([(1 : ℚ)/10, -1/5, 1/20] ≠ []) ∧ (∀ r ∈ [(1 : ℚ)/10, -1/5, 1/20], 0 < 1 + r)) ∧
    ((ddSeries [(1 : ℚ)/10, -1/5, 1/20]).headI = 0 ∧
      (∀ x ∈ ddSeries [(1 : ℚ)/10, -1/5, 1/20], 0 ≤ x) ∧
      0 ≤ (maxDrawdown [(1 : ℚ)/10, -1/5, 1/20]).1 ∧
      (maxDrawdown [(1 : ℚ)/10, -1/5, 1/20]).2.2 ≤ [(1 : ℚ)/10, -1/5, 1/20].length - 1 ∧
      (maxDrawdown [(1 : ℚ)/10, -1/5, 1/20]).2.1 ≤
        (([(1 : ℚ)/10, -1/5, 1/20].length : ℚ) - 1) / ([(1 : ℚ)/10, -1/5, 1/20].length : ℚ)) :=
  ⟨⟨by simp, by norm_num⟩,
    maxDrawdown_bounds [(1 : ℚ)/10, -1/5, 1/20] (by simp) (by norm_num)⟩

end Performance
